import Mathlib

/-!
Verification of the rule-compilation and match-resolution engine of the
spendingCat transaction categorizer (`src/categorize_trans.py`, `src/main.py`).

The engine is embedded shallowly over `List Char`:

* `make_loose_regex` mirrors the Python function of the same name: it strips
  the term, splits it into maximal word-character runs (`re.split(r"[^\w]+")`
  followed by discarding empties), and either falls back to a bare literal
  pattern (no tokens) or builds the pattern
  `(?<![A-Za-z0-9]) tok1 \W* tok2 ... tokN (?![A-Za-z0-9])` with `re.I`.
  Note `main.py` writes the lookarounds as `(?<![A-Z0-9])`/`(?![A-Z0-9])`,
  which is the same character class under `re.IGNORECASE`.
* Because every token is a nonempty run of word characters and `\W*` can only
  consume non-word characters, the regex body has exactly one viable parse at
  each starting offset: after each token the engine must skip precisely the
  maximal run of non-word characters before the next token.  `matchBody`
  implements that deterministic parse, and `searchAux` implements
  `re.Pattern.search`, i.e. the leftmost starting offset that admits a match.
* Character classes are the ASCII ones appearing in the source patterns
  (`[A-Za-z0-9]`, `\w`, `\W`), and `re.IGNORECASE` is modelled as ASCII
  case-folding; descriptions and terms are modelled as ASCII text.
* `best_match` mirrors the Python fold over `rules.items()` in iteration
  order, with `best_len` starting at `-1 : Int` and strict improvement only.
* `load_rules_json` mirrors the compilation loop on an already-parsed JSON
  value, with Python's dynamic-type failures (`.items()` on a non-dict,
  `.strip()` on a non-string) rendered as `Except.error`.
-/

/-- ASCII alphanumeric test, the class `[A-Za-z0-9]` of the lookarounds. -/
def isAsciiAlnum (c : Char) : Bool :=
  (65 ≤ c.toNat && c.toNat ≤ 90) || (97 ≤ c.toNat && c.toNat ≤ 122) ||
    (48 ≤ c.toNat && c.toNat ≤ 57)

/-- Word character, the class `\w` (alphanumeric or underscore). -/
def isWordChar (c : Char) : Bool :=
  isAsciiAlnum c || c.toNat = 95

/-- ASCII lower-casing on code points, used to model `re.IGNORECASE`. -/
def lowerN (n : Nat) : Nat :=
  if 65 ≤ n && n ≤ 90 then n + 32 else n

/-- Case-insensitive character comparison (ASCII model of `re.I`). -/
def eqIC (a b : Char) : Bool :=
  lowerN a.toNat = lowerN b.toNat

/-- Python whitespace stripped by `str.strip()` (ASCII model). -/
def isPySpace (c : Char) : Bool :=
  c.toNat = 32 || c.toNat = 9 || c.toNat = 10 || c.toNat = 13 ||
    c.toNat = 11 || c.toNat = 12

/-- Model of `str.strip()`: drop leading and trailing whitespace. -/
def pystrip (s : List Char) : List Char :=
  ((s.dropWhile isPySpace).reverse.dropWhile isPySpace).reverse

/-- Model of `[t for t in re.split(r"[^\w]+", term) if t]`: the maximal runs of word
characters of the term, in order.  (Structurally recursive so that it
computes by kernel reduction; `tokenize_cons_word` below recovers the
takeWhile/dropWhile reading.) -/
def tokenize : List Char → List (List Char)
  | [] => []
  | [c] => if isWordChar c then [[c]] else []
  | c :: d :: s =>
    if isWordChar c then
      if isWordChar d then
        match tokenize (d :: s) with
        | t :: rest => (c :: t) :: rest
        | [] => [[c]]
      else [c] :: tokenize (d :: s)
    else tokenize (d :: s)

/-- A compiled pattern, as built by `make_loose_regex`: either the bare
escaped literal (term with no tokens; no lookarounds), or the token body
with the two alphanumeric lookarounds. -/
inductive Matcher where
  | literal (s : List Char)
  | loose (tokens : List (List Char))
deriving DecidableEq, Repr

/-- The function `make_loose_regex` from the source: strip, tokenize, fall back to the
escaped literal when no tokens remain, else compile the loose token body. -/
def make_loose_regex (term : List Char) : Matcher :=
  let t := pystrip term
  match tokenize t with
  | [] => Matcher.literal t
  | ts => Matcher.loose ts

/-- Case-insensitive "text begins with token". -/
def startsWithIC : List Char → List Char → Bool
  | [], _ => true
  | _ :: _, [] => false
  | a :: as, b :: bs => eqIC a b && startsWithIC as bs

/-- Length of the maximal leading run of non-word characters: the unique
number of characters a greedy `\W*` consumes when a word character (the next
token) must follow. -/
def skipNonWord : List Char → Nat
  | [] => 0
  | c :: s => if isWordChar c then 0 else skipNonWord s + 1

/-- The deterministic parse of the regex body
`tok1 \W* tok2 \W* ... \W* tokN` at the current offset: each token matches
literally (case-insensitively) and between consecutive tokens exactly the
maximal run of non-word characters is consumed.  Returns the number of
characters matched. -/
def matchBody : List (List Char) → List Char → Option Nat
  | [], _ => some 0
  | [t], text => if startsWithIC t text then some t.length else none
  | t :: ts, text =>
    if startsWithIC t text then
      match matchBody ts ((text.drop t.length).drop (skipNonWord (text.drop t.length))) with
      | some n => some (t.length + (skipNonWord (text.drop t.length) + n))
      | none => none
    else none

/-- The negative lookarounds `(?<![A-Za-z0-9])` / `(?![A-Za-z0-9])` applied
to the character adjacent to the match (or to nothing, at text ends). -/
def notAlnumOpt : Option Char → Bool
  | some c => !(isAsciiAlnum c)
  | none => true

/-- Attempt a match of the compiled pattern at the current offset, given the
character just before the offset (`none` at offset 0) and the remaining
text.  Returns the matched length. -/
def matchAt (m : Matcher) (prev : Option Char) (text : List Char) : Option Nat :=
  match m with
  | .literal s => if startsWithIC s text then some s.length else none
  | .loose ts =>
    if notAlnumOpt prev then
      match matchBody ts text with
      | some n => if notAlnumOpt text[n]? then some n else none
      | none => none
    else none

/-- Model of `re.Pattern.search`: try offsets left to right, return the first
(start, end) pair that matches. -/
def searchAux (m : Matcher) : Option Char → List Char → Nat → Option (Nat × Nat)
  | prev, [], pos =>
    match matchAt m prev [] with
    | some n => some (pos, pos + n)
    | none => none
  | prev, c :: rest, pos =>
    match matchAt m prev (c :: rest) with
    | some n => some (pos, pos + n)
    | none => searchAux m (some c) rest (pos + 1)

/-- Model of `pat.search(desc)`: leftmost match of the compiled pattern, as
(start offset, end offset). -/
def regexSearch (m : Matcher) (desc : List Char) : Option (Nat × Nat) :=
  searchAux m none desc 0

/-- A compiled Rule Set: category → subcategory → compiled patterns, in
insertion (iteration) order. -/
abbrev RuleSet := List (String × List (String × List Matcher))

/-- One step of the `best_match` loop body: if the pattern matches, compare
`span_len = m.end() - m.start()` against `best_len` and replace on strict
improvement. -/
def bmStep (desc : List Char) (st : Int × (String × String))
    (t : String × String × Matcher) : Int × (String × String) :=
  match regexSearch t.2.2 desc with
  | some (a, b) =>
    if st.1 < (b : Int) - (a : Int) then ((b : Int) - (a : Int), (t.1, t.2.1)) else st
  | none => st

/-- The function `best_match` from the source: iterate every (category, subcategory,
pattern) triple in Rule Set order, tracking the best span seen so far
(starting from `best_len = -1` and the sentinel pair). -/
def best_match (desc : List Char) (rules : RuleSet) : String × String :=
  (rules.foldl (fun st cs =>
    cs.2.foldl (fun st2 sp =>
      sp.2.foldl (fun st3 pat => bmStep desc st3 (cs.1, sp.1, pat)) st2) st)
    (-1, ("Uncategorized", "Other"))).2

/-- The (category, subcategory, pattern) triples of one category's
subcategory map, in iteration order. -/
def subTriples (c : String) : List (String × List Matcher) → List (String × String × Matcher)
  | [] => []
  | sp :: rest => sp.2.map (fun m => (c, sp.1, m)) ++ subTriples c rest

/-- All (category, subcategory, pattern) triples of a Rule Set, in the
iteration order of the `best_match` loops. -/
def triples : RuleSet → List (String × String × Matcher)
  | [] => []
  | cs :: rest => subTriples cs.1 cs.2 ++ triples rest

/-- Length of the leftmost match of a pattern in a description, if any. -/
def spanLen (desc : List Char) (m : Matcher) : Option Nat :=
  match regexSearch m desc with
  | some (a, b) => some (b - a)
  | none => none

/-- The pattern either misses the description or its leftmost match is no
longer than `L`. -/
def spanLeB (desc : List Char) (m : Matcher) (L : Nat) : Bool :=
  match spanLen desc m with
  | some n => n ≤ L
  | none => true

/-- The pattern either misses the description or its leftmost match is
strictly shorter than `L`. -/
def spanLtB (desc : List Char) (m : Matcher) (L : Nat) : Bool :=
  match spanLen desc m with
  | some n => n < L
  | none => true

/-- The first pattern either misses the description, or the second one
matches it with a strictly longer leftmost span. -/
def dominatedB (desc : List Char) (m mT : Matcher) : Bool :=
  match regexSearch m desc, regexSearch mT desc with
  | some (a, b), some (s, e) => decide (b - a < e - s)
  | none, _ => true
  | some _, none => false

/-- The span `[s, e)` of the description is not immediately preceded and not
immediately followed by an ASCII alphanumeric character. -/
def boundaryOkB (desc : List Char) (s e : Nat) : Bool :=
  notAlnumOpt (match s with | 0 => none | k + 1 => desc[k]?) && notAlnumOpt desc[e]?

/-- The character just before the offset reached after scanning a list:
the list's last element, or the incoming previous character when the list
is empty. -/
def prevAfter (prev : Option Char) : List Char → Option Char
  | [] => prev
  | c :: rest => prevAfter (some c) rest

/-- Pointwise case-insensitive equality of two character lists. -/
def tokenEqIC : List Char → List Char → Bool
  | [], [] => true
  | a :: as, b :: bs => eqIC a b && tokenEqIC as bs
  | _, _ => false

/-- The predicate `IsVariant ts v` says the text `v` consists of the tokens `ts` in
order, each with its casing arbitrarily changed, with an arbitrary run of
non-word characters (possibly empty) between consecutive tokens. -/
inductive IsVariant : List (List Char) → List Char → Prop where
  | single (t v : List Char) : tokenEqIC t v = true → IsVariant [t] v
  | cons (t v sep : List Char) (ts : List (List Char)) (rest : List Char) :
      tokenEqIC t v = true → (∀ c ∈ sep, isWordChar c = false) →
      IsVariant ts rest → IsVariant (t :: ts) (v ++ (sep ++ rest))

/-- Raw rule data after JSON decoding, in the well-formed shape
`{category: {subcategory: [term, ...]}}`. -/
abbrev RawRules := List (String × List (String × List (List Char)))

/-- The compilation performed by `load_rules_json` on well-formed raw
rules: every term is compiled by `make_loose_regex`, structure and order
preserved. -/
def compileRaw (raw : RawRules) : RuleSet :=
  raw.map (fun cs => (cs.1, cs.2.map (fun sp => (sp.1, sp.2.map make_loose_regex))))

/-- A decoded JSON value, the input shape of `load_rules_json` after
`json.load`. -/
inductive Json where
  | str (s : List Char)
  | num (n : Int)
  | bool (b : Bool)
  | null
  | arr (xs : List Json)
  | obj (fields : List (String × Json))

/-- Compile one term: `make_loose_regex(t)` needs `t.strip()`, so any
non-string raises (`AttributeError`), modelled as an error. -/
def compileTerm : Json → Except String Matcher
  | .str s => .ok (make_loose_regex s)
  | _ => .error "rules term is not a string"

/-- Compile the terms of one subcategory list in order, stopping at the
first non-string term. -/
def compileTermList : List Json → Except String (List Matcher)
  | [] => .ok []
  | t :: ts =>
    match compileTerm t with
    | .ok m =>
      match compileTermList ts with
      | .ok ms => .ok (m :: ms)
      | .error e => .error e
    | .error e => .error e

/-- Model of `[make_loose_regex(t) for t in terms]`: Python iterates a list
elementwise, a string by characters (each a one-character string) and a
dict by its keys; any non-iterable raises (`TypeError`). -/
def compileTerms : Json → Except String (List Matcher)
  | .arr ts => compileTermList ts
  | .str s => .ok (s.map (fun c => make_loose_regex [c]))
  | .obj fields => .ok (fields.map (fun f => make_loose_regex f.1.data))
  | _ => .error "rules terms value is not iterable"

/-- Compile the subcategory entries of one category in order. -/
def compileSubsList : List (String × Json) → Except String (List (String × List Matcher))
  | [] => .ok []
  | sp :: rest =>
    match compileTerms sp.2 with
    | .ok ms =>
      match compileSubsList rest with
      | .ok l => .ok ((sp.1, ms) :: l)
      | .error e => .error e
    | .error e => .error e

/-- Compile the category entries in order; a category value that is not a
mapping raises (`.items()` on a non-dict), modelled as an error. -/
def compileCats : List (String × Json) → Except String RuleSet
  | [] => .ok []
  | cs :: rest =>
    match cs.2 with
    | .obj sfields =>
      match compileSubsList sfields with
      | .ok l =>
        match compileCats rest with
        | .ok rs => .ok ((cs.1, l) :: rs)
        | .error e => .error e
      | .error e => .error e
    | _ => .error "rules category value is not a mapping"

/-- The function `load_rules_json` from the source, on an already-decoded JSON value:
iterate the top-level mapping and compile every term; any dynamic-type
failure Python would raise is an error, and no partial Rule Set is ever
returned. -/
def load_rules_json : Json → Except String RuleSet
  | .obj cats => compileCats cats
  | _ => .error "rules document is not a mapping"

/-- A term in a term list that is not a string. -/
def termMalformedB : Json → Bool
  | .str _ => false
  | _ => true

/-- A subcategory entry whose term list contains a non-string term. -/
def subMalformedB (sp : String × Json) : Bool :=
  match sp.2 with
  | .arr ts => ts.any termMalformedB
  | _ => false

/-- A category entry whose value is not a mapping, or that contains a
malformed subcategory entry. -/
def catMalformedB (cs : String × Json) : Bool :=
  match cs.2 with
  | .obj subs => subs.any subMalformedB
  | _ => true

/-- Malformed rules input in the sense of the spec: the document is not a
mapping, some category value is not a mapping, or some term list contains
a non-string term. -/
def malformedB : Json → Bool
  | .obj cats => cats.any catMalformedB
  | _ => true

/-! ### Basic facts about the tokenizer -/

lemma length_dropWhile_le (p : Char → Bool) :
    ∀ l : List Char, (l.dropWhile p).length ≤ l.length := by
  intro l
  induction l with
  | nil => simp [List.dropWhile]
  | cons c s ih =>
    by_cases h : p c
    · simp only [List.dropWhile, h]
      exact Nat.le_succ_of_le ih
    · simp only [List.dropWhile, h]
      simp

lemma tokenize_cons_word (c : Char) (s : List Char) (hc : isWordChar c = true) :
    tokenize (c :: s) =
      (c :: s.takeWhile isWordChar) :: tokenize (s.dropWhile isWordChar) := by
  induction s generalizing c with
  | nil => simp [tokenize, hc, List.takeWhile, List.dropWhile]
  | cons d s ih =>
    by_cases hd : isWordChar d
    · simp only [tokenize, hc, hd, if_true, ih d hd, List.takeWhile, List.dropWhile]
    · simp only [tokenize, hc, hd, if_true, if_false, List.takeWhile, List.dropWhile]
      simp

lemma tokenize_cons_nonword (c : Char) (s : List Char) (hc : isWordChar c = false) :
    tokenize (c :: s) = tokenize s := by
  cases s with
  | nil => simp [tokenize, hc]
  | cons d s => simp [tokenize, hc]

/-! ### The best-match fold -/

lemma searchAux_le (m : Matcher) :
    ∀ (text : List Char) (prev : Option Char) (pos a b : Nat),
      searchAux m prev text pos = some (a, b) → a ≤ b := by
  intro text
  induction text with
  | nil =>
    intro prev pos a b h
    simp only [searchAux] at h
    cases hm : matchAt m prev [] with
    | none => rw [hm] at h; exact absurd h (by simp)
    | some n =>
      rw [hm] at h
      simp only [Option.some.injEq, Prod.mk.injEq] at h
      omega
  | cons c rest ih =>
    intro prev pos a b h
    simp only [searchAux] at h
    cases hm : matchAt m prev (c :: rest) with
    | none => rw [hm] at h; exact ih (some c) (pos + 1) a b h
    | some n =>
      rw [hm] at h
      simp only [Option.some.injEq, Prod.mk.injEq] at h
      omega

lemma regexSearch_le (m : Matcher) (desc : List Char) (a b : Nat)
    (h : regexSearch m desc = some (a, b)) : a ≤ b :=
  searchAux_le m desc none 0 a b h

lemma foldl_bmStep_skip (desc : List Char) :
    ∀ (ts : List (String × String × Matcher)) (st : Int × (String × String)),
      (∀ t ∈ ts, ∀ a b, regexSearch t.2.2 desc = some (a, b) → (b : Int) - a ≤ st.1) →
      List.foldl (bmStep desc) st ts = st := by
  intro ts
  induction ts with
  | nil => intro st _; rfl
  | cons t ts ih =>
    intro st h
    have hstep : bmStep desc st t = st := by
      cases hr : regexSearch t.2.2 desc with
      | none => simp [bmStep, hr]
      | some p =>
        obtain ⟨a, b⟩ := p
        have hle := h t (by simp) a b hr
        simp only [bmStep, hr]
        rw [if_neg (by omega)]
    rw [List.foldl_cons, hstep]
    exact ih st (fun t' ht' => h t' (List.mem_cons_of_mem _ ht'))

lemma foldl_bmStep_lt (desc : List Char) (L : Int) :
    ∀ (ts : List (String × String × Matcher)) (st : Int × (String × String)),
      (∀ t ∈ ts, ∀ a b, regexSearch t.2.2 desc = some (a, b) → (b : Int) - a < L) →
      st.1 < L → (List.foldl (bmStep desc) st ts).1 < L := by
  intro ts
  induction ts with
  | nil => intro st _ hst; exact hst
  | cons t ts ih =>
    intro st h hst
    rw [List.foldl_cons]
    refine ih (bmStep desc st t) (fun t' ht' => h t' (List.mem_cons_of_mem _ ht')) ?_
    cases hr : regexSearch t.2.2 desc with
    | none => simpa [bmStep, hr] using hst
    | some p =>
      obtain ⟨a, b⟩ := p
      have hlt := h t (by simp) a b hr
      simp only [bmStep, hr]
      split
      · exact hlt
      · exact hst

lemma foldl_bmStep_spec (desc : List Char) :
    ∀ (ts : List (String × String × Matcher)) (st : Int × (String × String)),
      (List.foldl (bmStep desc) st ts = st ∧
        ∀ t ∈ ts, ∀ a b, regexSearch t.2.2 desc = some (a, b) → (b : Int) - a ≤ st.1) ∨
      (∃ t ∈ ts, ∃ a b, regexSearch t.2.2 desc = some (a, b) ∧ st.1 < (b : Int) - a ∧
        List.foldl (bmStep desc) st ts = ((b : Int) - a, (t.1, t.2.1)) ∧
        ∀ t' ∈ ts, ∀ a' b', regexSearch t'.2.2 desc = some (a', b') →
          (b' : Int) - a' ≤ (b : Int) - a) := by
  intro ts
  induction ts with
  | nil => intro st; exact Or.inl ⟨rfl, by simp⟩
  | cons t ts ih =>
    intro st
    by_cases himp : ∃ a b, regexSearch t.2.2 desc = some (a, b) ∧ st.1 < (b : Int) - a
    · obtain ⟨a, b, hr, hlt⟩ := himp
      have hstep : bmStep desc st t = ((b : Int) - a, (t.1, t.2.1)) := by
        simp only [bmStep, hr]
        rw [if_pos hlt]
      rcases ih (((b : Int) - a, (t.1, t.2.1))) with ⟨heq, hle⟩ | ⟨t1, ht1, a1, b1, hr1, hlt1, heq1, hle1⟩
      · refine Or.inr ⟨t, by simp, a, b, hr, hlt, ?_, ?_⟩
        · rw [List.foldl_cons, hstep, heq]
        · intro t' ht' a' b' hr'
          rcases List.mem_cons.1 ht' with h | h
          · subst h; rw [hr] at hr'
            simp only [Option.some.injEq, Prod.mk.injEq] at hr'
            omega
          · exact hle t' h a' b' hr'
      · refine Or.inr ⟨t1, List.mem_cons_of_mem _ ht1, a1, b1, hr1, by omega, ?_, ?_⟩
        · rw [List.foldl_cons, hstep, heq1]
        · intro t' ht' a' b' hr'
          rcases List.mem_cons.1 ht' with h | h
          · subst h; rw [hr] at hr'
            simp only [Option.some.injEq, Prod.mk.injEq] at hr'
            have := hlt1
            omega
          · exact hle1 t' h a' b' hr'
    · push_neg at himp
      have hstep : bmStep desc st t = st := by
        cases hr : regexSearch t.2.2 desc with
        | none => simp [bmStep, hr]
        | some p =>
          obtain ⟨a, b⟩ := p
          have := himp a b hr
          simp only [bmStep, hr]
          rw [if_neg (by omega)]
      rcases ih st with ⟨heq, hle⟩ | ⟨t1, ht1, a1, b1, hr1, hlt1, heq1, hle1⟩
      · refine Or.inl ⟨by rw [List.foldl_cons, hstep, heq], ?_⟩
        intro t' ht' a' b' hr'
        rcases List.mem_cons.1 ht' with h | h
        · subst h; have := himp a' b' hr'; omega
        · exact hle t' h a' b' hr'
      · refine Or.inr ⟨t1, List.mem_cons_of_mem _ ht1, a1, b1, hr1, hlt1, ?_, ?_⟩
        · rw [List.foldl_cons, hstep, heq1]
        · intro t' ht' a' b' hr'
          rcases List.mem_cons.1 ht' with h | h
          · subst h; have := himp a' b' hr'; omega
          · exact hle1 t' h a' b' hr'

lemma foldl_bmStep_subTriples (desc : List Char) (c : String) :
    ∀ (subs : List (String × List Matcher)) (st : Int × (String × String)),
      subs.foldl (fun st2 sp =>
        sp.2.foldl (fun st3 pat => bmStep desc st3 (c, sp.1, pat)) st2) st =
      List.foldl (bmStep desc) st (subTriples c subs) := by
  intro subs
  induction subs with
  | nil => intro st; rfl
  | cons sp rest ih =>
    intro st
    rw [List.foldl_cons, subTriples, List.foldl_append, List.foldl_map]
    exact ih _

lemma foldl_bmStep_triples (desc : List Char) :
    ∀ (rules : RuleSet) (st : Int × (String × String)),
      rules.foldl (fun st cs =>
        cs.2.foldl (fun st2 sp =>
          sp.2.foldl (fun st3 pat => bmStep desc st3 (cs.1, sp.1, pat)) st2) st) st =
      List.foldl (bmStep desc) st (triples rules) := by
  intro rules
  induction rules with
  | nil => intro st; rfl
  | cons cs rest ih =>
    intro st
    rw [List.foldl_cons, triples, List.foldl_append, ← foldl_bmStep_subTriples]
    exact ih _

lemma best_match_eq_fold (desc : List Char) (rules : RuleSet) :
    best_match desc rules =
      (List.foldl (bmStep desc) (-1, ("Uncategorized", "Other")) (triples rules)).2 := by
  unfold best_match
  rw [foldl_bmStep_triples]

lemma best_match_of_no_match (desc : List Char) (rules : RuleSet)
    (h : ∀ t ∈ triples rules, regexSearch t.2.2 desc = none) :
    best_match desc rules = ("Uncategorized", "Other") := by
  rw [best_match_eq_fold,
    foldl_bmStep_skip desc (triples rules) _
      (fun t ht a b hr => absurd (by rw [h t ht] at hr; exact hr) (by simp))]

lemma best_match_first_max (desc : List Char) (rules : RuleSet) (i : Nat)
    (c s : String) (m : Matcher) (a b : Nat)
    (hi : (triples rules)[i]? = some (c, s, m))
    (hm : regexSearch m desc = some (a, b))
    (hmax : ∀ t ∈ triples rules, ∀ a' b', regexSearch t.2.2 desc = some (a', b') →
      (b' : Int) - a' ≤ (b : Int) - a)
    (hfirst : ∀ t ∈ (triples rules).take i, ∀ a' b', regexSearch t.2.2 desc = some (a', b') →
      (b' : Int) - a' < (b : Int) - a) :
    best_match desc rules = (c, s) := by
  obtain ⟨hlen, hget⟩ := List.getElem?_eq_some.1 hi
  have hdecomp : triples rules =
      (triples rules).take i ++ (c, s, m) :: (triples rules).drop (i + 1) := by
    conv_lhs => rw [← List.take_append_drop i (triples rules)]
    rw [List.drop_eq_getElem_cons hlen, hget]
  rw [best_match_eq_fold, hdecomp, List.foldl_append, List.foldl_cons]
  have hab := regexSearch_le m desc a b hm
  have h1 : (List.foldl (bmStep desc) (-1, ("Uncategorized", "Other"))
      ((triples rules).take i)).1 < (b : Int) - a :=
    foldl_bmStep_lt desc ((b : Int) - a) ((triples rules).take i) _ hfirst (by omega)
  have hstep : bmStep desc
      (List.foldl (bmStep desc) (-1, ("Uncategorized", "Other")) ((triples rules).take i))
      (c, s, m) = ((b : Int) - a, (c, s)) := by
    simp only [bmStep, hm]
    rw [if_pos h1]
  rw [hstep,
    foldl_bmStep_skip desc ((triples rules).drop (i + 1)) ((b : Int) - a, (c, s))
      (fun t ht a' b' hr' => hmax t (List.mem_of_mem_drop ht) a' b' hr')]

/-! ### Claim theorems: resolver -/

/-- C1: for two compiled rules both matching a description, the rule whose
leftmost match has the strictly greater span length wins the resolution,
in whichever order the two rules are listed in the Rule Set. -/
theorem spec_c1_longest_span_wins (desc : List Char) (c1 s1 c2 s2 : String)
    (m1 m2 : Matcher) (a1 b1 a2 b2 : Nat)
    (h1 : regexSearch m1 desc = some (a1, b1))
    (h2 : regexSearch m2 desc = some (a2, b2))
    (hgt : b2 - a2 < b1 - a1) :
    best_match desc [(c1, [(s1, [m1])]), (c2, [(s2, [m2])])] = (c1, s1) ∧
    best_match desc [(c2, [(s2, [m2])]), (c1, [(s1, [m1])])] = (c1, s1) := by
  have e1 := regexSearch_le m1 desc a1 b1 h1
  have e2 := regexSearch_le m2 desc a2 b2 h2
  have st1 : bmStep desc (-1, ("Uncategorized", "Other")) (c1, s1, m1) =
      ((b1 : Int) - a1, (c1, s1)) := by
    simp only [bmStep, h1]
    rw [if_pos (by omega)]
  have st2 : bmStep desc ((b1 : Int) - a1, (c1, s1)) (c2, s2, m2) =
      ((b1 : Int) - a1, (c1, s1)) := by
    simp only [bmStep, h2]
    rw [if_neg (by omega)]
  have st3 : bmStep desc (-1, ("Uncategorized", "Other")) (c2, s2, m2) =
      ((b2 : Int) - a2, (c2, s2)) := by
    simp only [bmStep, h2]
    rw [if_pos (by omega)]
  have st4 : bmStep desc ((b2 : Int) - a2, (c2, s2)) (c1, s1, m1) =
      ((b1 : Int) - a1, (c1, s1)) := by
    simp only [bmStep, h1]
    rw [if_pos (by omega)]
  constructor
  · simp only [best_match, List.foldl_cons, List.foldl_nil, st1, st2]
  · simp only [best_match, List.foldl_cons, List.foldl_nil, st3, st4]

/-- C1 witness: "ab cd" (span 5) beats "ab" (span 2) on the description
"ab cd" in both rule orders. -/
theorem spec_c1_witness :
    regexSearch (make_loose_regex "ab cd".data) "ab cd".data = some (0, 5) ∧
    regexSearch (make_loose_regex "ab".data) "ab cd".data = some (0, 2) ∧
    2 - 0 < 5 - 0 ∧
    best_match "ab cd".data
      [("C1", [("S1", [make_loose_regex "ab cd".data])]),
       ("C2", [("S2", [make_loose_regex "ab".data])])] = ("C1", "S1") ∧
    best_match "ab cd".data
      [("C2", [("S2", [make_loose_regex "ab".data])]),
       ("C1", [("S1", [make_loose_regex "ab cd".data])])] = ("C1", "S1") := by
  refine ⟨by decide, by decide, by decide, ?_, ?_⟩
  · exact (spec_c1_longest_span_wins "ab cd".data "C1" "S1" "C2" "S2"
      (make_loose_regex "ab cd".data) (make_loose_regex "ab".data) 0 5 0 2
      (by decide) (by decide) (by decide)).1
  · exact (spec_c1_longest_span_wins "ab cd".data "C1" "S1" "C2" "S2"
      (make_loose_regex "ab cd".data) (make_loose_regex "ab".data) 0 5 0 2
      (by decide) (by decide) (by decide)).2

/-- C2: the resolver replaces the current best only on strictly greater
span, so among all matching triples attaining the maximal span length the
one first in Rule Set iteration order determines the result. -/
theorem spec_c2_strict_improvement_first_wins (desc : List Char) (rules : RuleSet)
    (i : Nat) (c s : String) (m : Matcher) (L : Nat)
    (hi : (triples rules)[i]? = some (c, s, m))
    (hm : spanLen desc m = some L)
    (hmax : ∀ t ∈ triples rules, spanLeB desc t.2.2 L = true)
    (hfirst : ∀ t ∈ (triples rules).take i, spanLtB desc t.2.2 L = true) :
    best_match desc rules = (c, s) := by
  cases hr : regexSearch m desc with
  | none => rw [spanLen, hr] at hm; cases hm
  | some p =>
    obtain ⟨a, b⟩ := p
    have hab := regexSearch_le m desc a b hr
    have hL : L = b - a := by
      rw [spanLen, hr] at hm
      exact (Option.some.injEq _ _ ▸ hm).symm
    subst hL
    apply best_match_first_max desc rules i c s m a b hi hr
    · intro t ht a' b' hr'
      have hx := hmax t ht
      rw [spanLeB, spanLen, hr'] at hx
      have hab' := regexSearch_le t.2.2 desc a' b' hr'
      simp only [decide_eq_true_eq] at hx
      omega
    · intro t ht a' b' hr'
      have hx := hfirst t ht
      rw [spanLtB, spanLen, hr'] at hx
      have hab' := regexSearch_le t.2.2 desc a' b' hr'
      simp only [decide_eq_true_eq] at hx
      omega

/-- C2 witness: two rules both matching "xx" with equal span 2; the one
listed first wins. -/
theorem spec_c2_witness :
    (triples [("A", [("S1", [make_loose_regex "xx".data])]),
              ("B", [("S2", [make_loose_regex "xx".data])])])[0]? =
      some ("A", "S1", make_loose_regex "xx".data) ∧
    spanLen "xx".data (make_loose_regex "xx".data) = some 2 ∧
    (∀ t ∈ triples [("A", [("S1", [make_loose_regex "xx".data])]),
                    ("B", [("S2", [make_loose_regex "xx".data])])],
      spanLeB "xx".data t.2.2 2 = true) ∧
    best_match "xx".data
      [("A", [("S1", [make_loose_regex "xx".data])]),
       ("B", [("S2", [make_loose_regex "xx".data])])] = ("A", "S1") := by
  refine ⟨by decide, by decide, by decide, ?_⟩
  exact spec_c2_strict_improvement_first_wins "xx".data
    [("A", [("S1", [make_loose_regex "xx".data])]),
     ("B", [("S2", [make_loose_regex "xx".data])])]
    0 "A" "S1" (make_loose_regex "xx".data) 2
    (by decide) (by decide) (by decide) (by decide)

/-- C3: a description matched by no pattern of the Rule Set resolves to
exactly the sentinel pair ("Uncategorized", "Other"), as a normal return
value. -/
theorem spec_c3_no_match_sentinel (desc : List Char) (rules : RuleSet)
    (h : ∀ t ∈ triples rules, regexSearch t.2.2 desc = none) :
    best_match desc rules = ("Uncategorized", "Other") :=
  best_match_of_no_match desc rules h

/-- C3 witness: "hello" matches no rule of a one-rule Rule Set and
resolves to the sentinel. -/
theorem spec_c3_witness :
    (∀ t ∈ triples [("Food", [("Groceries", [make_loose_regex "zzz".data])])],
      regexSearch t.2.2 "hello".data = none) ∧
    best_match "hello".data [("Food", [("Groceries", [make_loose_regex "zzz".data])])] =
      ("Uncategorized", "Other") := by
  refine ⟨by decide, ?_⟩
  exact spec_c3_no_match_sentinel "hello".data
    [("Food", [("Groceries", [make_loose_regex "zzz".data])])] (by decide)

/-- C9: the resolver `best_match` is deterministic: invocations on equal descriptions
and equal compiled Rule Sets return equal (category, subcategory) results.
(In this embedding `best_match` is a pure function of its two arguments,
matching the source, which only reads `desc` and `rules`.) -/
theorem spec_c9_deterministic (d1 d2 : List Char) (r1 r2 : RuleSet)
    (hd : d1 = d2) (hr : r1 = r2) :
    best_match d1 r1 = best_match d2 r2 := by
  rw [hd, hr]

/-- C9 witness: resolving the same description twice against the same
Rule Set yields identical results. -/
theorem spec_c9_witness :
    best_match "UBER TRIP".data [("Transport", [("Rideshare", [make_loose_regex "uber".data])])] =
    best_match "UBER TRIP".data [("Transport", [("Rideshare", [make_loose_regex "uber".data])])] :=
  spec_c9_deterministic "UBER TRIP".data "UBER TRIP".data
    [("Transport", [("Rideshare", [make_loose_regex "uber".data])])]
    [("Transport", [("Rideshare", [make_loose_regex "uber".data])])] rfl rfl

/-- C5: the matcher compiled from "gas" matches nowhere in
"Las Vegas Casino", and the matcher compiled from "fedex" matches
"FEDEX OFFICE PRINT #123" with leftmost span exactly offsets 0 to 5
(the substring "FEDEX"). -/
theorem spec_c5_boundary_examples :
    regexSearch (make_loose_regex "gas".data) "Las Vegas Casino".data = none ∧
    regexSearch (make_loose_regex "fedex".data) "FEDEX OFFICE PRINT #123".data =
      some (0, 5) := by
  constructor
  · decide
  · decide

/-! ### Character classes and tokens -/

lemma isAsciiAlnum_eq_false_of_nonword (c : Char) (h : isWordChar c = false) :
    isAsciiAlnum c = false := by
  unfold isWordChar at h
  exact (Bool.or_eq_false_iff.1 h).1

lemma eqIC_refl (a : Char) : eqIC a a = true := by
  simp [eqIC]

lemma isWordChar_of_eqIC (a b : Char) (h : eqIC a b = true) (ha : isWordChar a = true) :
    isWordChar b = true := by
  unfold eqIC at h
  simp only [decide_eq_true_eq] at h
  unfold lowerN at h
  unfold isWordChar isAsciiAlnum at ha ⊢
  split_ifs at h with h1 h2 <;>
    simp only [Bool.or_eq_true, Bool.and_eq_true, decide_eq_true_eq] at * <;> omega

lemma tokenEqIC_refl : ∀ t : List Char, tokenEqIC t t = true := by
  intro t
  induction t with
  | nil => rfl
  | cons a as ih => simp [tokenEqIC, eqIC_refl, ih]

lemma tokenEqIC_length : ∀ t v : List Char, tokenEqIC t v = true → t.length = v.length := by
  intro t
  induction t with
  | nil => intro v h; cases v with | nil => rfl | cons b bs => cases h
  | cons a as ih =>
    intro v h
    cases v with
    | nil => cases h
    | cons b bs =>
      simp only [tokenEqIC, Bool.and_eq_true] at h
      simp [ih bs h.2]

lemma startsWithIC_append : ∀ t v z : List Char, tokenEqIC t v = true →
    startsWithIC t (v ++ z) = true := by
  intro t
  induction t with
  | nil => intro v z _; rfl
  | cons a as ih =>
    intro v z h
    cases v with
    | nil => cases h
    | cons b bs =>
      simp only [tokenEqIC, Bool.and_eq_true] at h
      simp [startsWithIC, h.1, ih bs z h.2]

lemma startsWithIC_self (s : List Char) : startsWithIC s s = true := by
  have := startsWithIC_append s s [] (tokenEqIC_refl s)
  simpa using this

lemma startsWithIC_nil_eq_false (a : Char) (as : List Char) :
    startsWithIC (a :: as) [] = false := rfl

lemma skipNonWord_append (sep x : List Char) (hsep : ∀ c ∈ sep, isWordChar c = false)
    (c0 : Char) (hx : x.head? = some c0) (hc0 : isWordChar c0 = true) :
    skipNonWord (sep ++ x) = sep.length := by
  induction sep with
  | nil =>
    cases x with
    | nil => cases hx
    | cons d ds =>
      simp only [List.head?] at hx
      cases hx
      simp [skipNonWord, hc0]
  | cons c sep' ih =>
    have hc : isWordChar c = false := hsep c (by simp)
    have h1 : skipNonWord ((c :: sep') ++ x) = skipNonWord (sep' ++ x) + 1 := by
      show skipNonWord (c :: (sep' ++ x)) = skipNonWord (sep' ++ x) + 1
      simp [skipNonWord, hc]
    rw [h1, ih (fun d hd => hsep d (List.mem_cons_of_mem _ hd))]
    simp

lemma tokenize_tokens_aux : ∀ (n : Nat) (s : List Char), s.length ≤ n →
    ∀ t ∈ tokenize s, t ≠ [] ∧ ∀ c ∈ t, isWordChar c = true := by
  intro n
  induction n with
  | zero =>
    intro s hs t ht
    rw [List.length_eq_zero.1 (Nat.le_zero.1 hs)] at ht
    cases ht
  | succ n ih =>
    intro s hs t ht
    cases s with
    | nil => cases ht
    | cons c s' =>
      by_cases hc : isWordChar c = true
      · rw [tokenize_cons_word c s' hc] at ht
        rcases List.mem_cons.1 ht with h | h
        · subst h
          refine ⟨by simp, ?_⟩
          intro x hx
          rcases List.mem_cons.1 hx with h | h
          · subst h; exact hc
          · exact List.mem_takeWhile_imp h
        · exact ih (s'.dropWhile isWordChar)
            (le_trans (length_dropWhile_le _ _) (by simp at hs; omega)) t h
      · rw [tokenize_cons_nonword c s' (by simpa using hc)] at ht
        exact ih s' (by simp at hs; omega) t ht

lemma tokenize_tokens (s : List Char) :
    ∀ t ∈ tokenize s, t ≠ [] ∧ ∀ c ∈ t, isWordChar c = true :=
  tokenize_tokens_aux s.length s le_rfl

lemma IsVariant_ne_nil {ts : List (List Char)} {core : List Char}
    (h : IsVariant ts core) : ts ≠ [] := by
  cases h <;> simp

lemma tokenEqIC_head (t v : List Char) (htv : tokenEqIC t v = true)
    (htne : t ≠ []) (htw : ∀ c ∈ t, isWordChar c = true) :
    ∃ c0, v.head? = some c0 ∧ isWordChar c0 = true := by
  cases t with
  | nil => exact absurd rfl htne
  | cons a as =>
    cases v with
    | nil => cases htv
    | cons b bs =>
      simp only [tokenEqIC, Bool.and_eq_true] at htv
      exact ⟨b, rfl, isWordChar_of_eqIC a b htv.1 (htw a (by simp))⟩

lemma IsVariant_head {ts : List (List Char)} {core : List Char}
    (h : IsVariant ts core)
    (hw : ∀ t ∈ ts, t ≠ [] ∧ ∀ c ∈ t, isWordChar c = true) :
    ∃ c0, core.head? = some c0 ∧ isWordChar c0 = true := by
  cases h with
  | single t v htv =>
    obtain ⟨htne, htw⟩ := hw t (by simp)
    exact tokenEqIC_head t _ htv htne htw
  | cons t v sep ts' rest htv hsep hrest =>
    obtain ⟨htne, htw⟩ := hw t (by simp)
    obtain ⟨c0, hc0, hc0w⟩ := tokenEqIC_head t v htv htne htw
    refine ⟨c0, ?_, hc0w⟩
    cases v with
    | nil => cases hc0
    | cons b bs =>
      simp only [List.head?, Option.some.injEq] at hc0
      simp [hc0]

lemma matchBody_variant {ts : List (List Char)} {core : List Char}
    (hv : IsVariant ts core)
    (hw : ∀ t ∈ ts, t ≠ [] ∧ ∀ c ∈ t, isWordChar c = true) :
    ∀ suf, matchBody ts (core ++ suf) = some core.length := by
  induction hv with
  | single t v htv =>
    intro suf
    rw [matchBody, if_pos (startsWithIC_append t v suf htv), tokenEqIC_length t v htv]
  | cons t v sep ts' rest htv hsep hrest ih =>
    intro suf
    obtain ⟨t2, ts'', rfl⟩ : ∃ t2 ts'', ts' = t2 :: ts'' := by
      cases hts' : ts' with
      | nil => exact absurd hts' (IsVariant_ne_nil hrest)
      | cons t2 ts'' => exact ⟨t2, ts'', rfl⟩
    have hw' : ∀ u ∈ t2 :: ts'', u ≠ [] ∧ ∀ c ∈ u, isWordChar c = true :=
      fun u hu => hw u (List.mem_cons_of_mem _ hu)
    obtain ⟨c0, hc0, hc0w⟩ := IsVariant_head hrest hw'
    obtain ⟨r0, rest', rfl⟩ : ∃ r0 rest', rest = r0 :: rest' := by
      cases rest with
      | nil => cases hc0
      | cons r0 rest' => exact ⟨r0, rest', rfl⟩
    have hassoc : (v ++ (sep ++ (r0 :: rest'))) ++ suf =
        v ++ (sep ++ ((r0 :: rest') ++ suf)) := by simp
    have hhead : ((r0 :: rest') ++ suf).head? = some c0 := by
      simp only [List.head?] at hc0
      simp [hc0]
    have hlen : t.length = v.length := tokenEqIC_length t v htv
    have hdrop : (v ++ (sep ++ ((r0 :: rest') ++ suf))).drop t.length =
        sep ++ ((r0 :: rest') ++ suf) := by
      rw [hlen]
      exact List.drop_left v _
    have hskip : skipNonWord ((v ++ (sep ++ ((r0 :: rest') ++ suf))).drop t.length) =
        sep.length := by
      rw [hdrop]
      exact skipNonWord_append sep _ hsep c0 hhead hc0w
    rw [hassoc]
    simp only [matchBody]
    rw [if_pos (startsWithIC_append t v _ htv), hskip, hdrop, List.drop_left sep _,
      ih hw' suf]
    simp only [Option.some.injEq, List.length_append, List.length_cons]
    omega

/-! ### Lookarounds and search -/

lemma matchAt_loose_some (ts : List (List Char)) (prev : Option Char)
    (text : List Char) (n : Nat)
    (h : matchAt (.loose ts) prev text = some n) :
    notAlnumOpt prev = true ∧ notAlnumOpt text[n]? = true := by
  simp only [matchAt] at h
  by_cases hp : notAlnumOpt prev = true
  · rw [if_pos hp] at h
    cases hb : matchBody ts text with
    | none =>
      rw [hb] at h
      exact absurd h (by simp)
    | some k =>
      rw [hb] at h
      have h2 : (if notAlnumOpt text[k]? = true then some k else none) = some n := h
      by_cases hq : notAlnumOpt text[k]? = true
      · rw [if_pos hq] at h2
        simp only [Option.some.injEq] at h2
        subst h2
        exact ⟨hp, hq⟩
      · rw [if_neg hq] at h2; cases h2
  · rw [if_neg hp] at h; cases h

lemma matchAt_variant (ts : List (List Char)) (core suf : List Char) (prev : Option Char)
    (hv : IsVariant ts core)
    (hw : ∀ t ∈ ts, t ≠ [] ∧ ∀ c ∈ t, isWordChar c = true)
    (hprev : notAlnumOpt prev = true) (hsuf : notAlnumOpt suf.head? = true) :
    matchAt (.loose ts) prev (core ++ suf) = some core.length := by
  simp only [matchAt]
  rw [if_pos hprev, matchBody_variant hv hw suf]
  have hget : (core ++ suf)[core.length]? = suf.head? := by
    rw [List.getElem?_append_right (le_refl core.length)]
    simp only [Nat.sub_self]
    cases suf <;> simp
  show (if notAlnumOpt (core ++ suf)[core.length]? = true then some core.length else none) =
    some core.length
  rw [hget, if_pos hsuf]

lemma searchAux_nil_eq (m : Matcher) (prev : Option Char) (pos : Nat) :
    searchAux m prev [] pos =
      match matchAt m prev [] with
      | some n => some (pos, pos + n)
      | none => none := rfl

lemma searchAux_cons_eq (m : Matcher) (prev : Option Char) (c : Char) (cs : List Char)
    (pos : Nat) :
    searchAux m prev (c :: cs) pos =
      match matchAt m prev (c :: cs) with
      | some n => some (pos, pos + n)
      | none => searchAux m (some c) cs (pos + 1) := rfl

lemma searchAux_append_isSome (m : Matcher) :
    ∀ (pre rest : List Char) (prev : Option Char) (pos : Nat) (n : Nat),
      matchAt m (prevAfter prev pre) rest = some n →
      ∃ r, searchAux m prev (pre ++ rest) pos = some r := by
  intro pre
  induction pre with
  | nil =>
    intro rest prev pos n h
    simp only [prevAfter] at h
    refine ⟨(pos, pos + n), ?_⟩
    show searchAux m prev rest pos = some (pos, pos + n)
    cases rest with
    | nil => rw [searchAux_nil_eq, h]
    | cons c cs => rw [searchAux_cons_eq, h]
  | cons c pre' ih =>
    intro rest prev pos n h
    cases hm : matchAt m prev (c :: (pre' ++ rest)) with
    | some k =>
      refine ⟨(pos, pos + k), ?_⟩
      show searchAux m prev (c :: (pre' ++ rest)) pos = some (pos, pos + k)
      rw [searchAux_cons_eq, hm]
    | none =>
      obtain ⟨r, hr⟩ := ih rest (some c) (pos + 1) n h
      refine ⟨r, ?_⟩
      show searchAux m prev (c :: (pre' ++ rest)) pos = some r
      rw [searchAux_cons_eq, hm]
      exact hr

lemma notAlnumOpt_prevAfter : ∀ (pre : List Char) (prev : Option Char),
    notAlnumOpt prev = true → (∀ c ∈ pre, isWordChar c = false) →
    notAlnumOpt (prevAfter prev pre) = true := by
  intro pre
  induction pre with
  | nil => intro prev hp _; exact hp
  | cons c pre' ih =>
    intro prev _ hpre
    exact ih (some c)
      (by simp [notAlnumOpt, isAsciiAlnum_eq_false_of_nonword c (hpre c (by simp))])
      (fun d hd => hpre d (List.mem_cons_of_mem _ hd))

lemma notAlnumOpt_head_of_nonword (suf : List Char)
    (hsuf : ∀ c ∈ suf, isWordChar c = false) :
    notAlnumOpt suf.head? = true := by
  cases suf with
  | nil => rfl
  | cons c cs =>
    simp [notAlnumOpt, isAsciiAlnum_eq_false_of_nonword c (hsuf c (by simp))]

lemma searchAux_loose_boundary (ts : List (List Char)) (desc : List Char) :
    ∀ (text : List Char) (pos : Nat) (prev : Option Char),
      text = desc.drop pos →
      prev = (match pos with | 0 => none | k + 1 => desc[k]?) →
      ∀ a b, searchAux (.loose ts) prev text pos = some (a, b) →
        boundaryOkB desc a b = true := by
  intro text
  induction text with
  | nil =>
    intro pos prev htext hprev a b h
    rw [searchAux_nil_eq] at h
    cases hm : matchAt (.loose ts) prev [] with
    | none => rw [hm] at h; cases h
    | some n =>
      rw [hm] at h
      have h' : some (pos, pos + n) = some (a, b) := h
      simp only [Option.some.injEq, Prod.mk.injEq] at h'
      obtain ⟨ha, hb⟩ := h'
      obtain ⟨hp, hq⟩ := matchAt_loose_some ts prev [] n hm
      subst ha
      subst hb
      unfold boundaryOkB
      rw [← hprev]
      have h2 : desc[pos + n]? = (none : Option Char) := by
        rw [← List.getElem?_drop, ← htext]
        simp
      rw [h2, hp]
      decide
  | cons c cs ih =>
    intro pos prev htext hprev a b h
    rw [searchAux_cons_eq] at h
    cases hm : matchAt (.loose ts) prev (c :: cs) with
    | some n =>
      rw [hm] at h
      have h' : some (pos, pos + n) = some (a, b) := h
      simp only [Option.some.injEq, Prod.mk.injEq] at h'
      obtain ⟨ha, hb⟩ := h'
      obtain ⟨hp, hq⟩ := matchAt_loose_some ts prev (c :: cs) n hm
      subst ha
      subst hb
      unfold boundaryOkB
      rw [← hprev]
      have h2 : desc[pos + n]? = (c :: cs)[n]? := by
        rw [← List.getElem?_drop, ← htext]
      rw [h2]
      simp [hp, hq]
    | none =>
      rw [hm] at h
      have hc : some c = desc[pos]? := by
        have h3 := List.getElem?_drop desc pos 0
        rw [← htext] at h3
        simpa using h3
      have hcs : cs = desc.drop (pos + 1) := by
        rw [← List.tail_drop desc pos, ← htext]
        rfl
      exact ih (pos + 1) (some c) hcs hc a b h

lemma regexSearch_loose_boundary (ts : List (List Char)) (desc : List Char) (a b : Nat)
    (h : regexSearch (.loose ts) desc = some (a, b)) :
    boundaryOkB desc a b = true :=
  searchAux_loose_boundary ts desc desc 0 none (List.drop_zero desc).symm rfl a b h

lemma make_loose_regex_loose (T : List Char) (htoks : tokenize (pystrip T) ≠ []) :
    make_loose_regex T = Matcher.loose (tokenize (pystrip T)) := by
  simp only [make_loose_regex]

/-! ### Claim theorems: matcher boundaries -/

/-- C4 counterexample: the term "#" tokenizes to nothing, so it compiles to
the bare literal pattern with no lookarounds; in "a#b" it matches the span
(1, 2), which is immediately preceded by the alphanumeric 'a' and followed
by the alphanumeric 'b'. -/
theorem spec_c4_counterexample :
    make_loose_regex "#".data = Matcher.literal "#".data ∧
    regexSearch (make_loose_regex "#".data) "a#b".data = some (1, 2) ∧
    boundaryOkB "a#b".data 1 2 = false := by
  refine ⟨by decide, by decide, by decide⟩

/-- C4 (amended): for every rule term whose tokenization is nonempty, the
compiled matcher never matches a span immediately preceded or followed by
an ASCII alphanumeric character of the description; the no-token fallback
literal matcher carries no such guard. -/
theorem spec_c4_boundary_guard (T desc : List Char) (a b : Nat)
    (htoks : tokenize (pystrip T) ≠ [])
    (h : regexSearch (make_loose_regex T) desc = some (a, b)) :
    boundaryOkB desc a b = true := by
  rw [make_loose_regex_loose T htoks] at h
  exact regexSearch_loose_boundary _ desc a b h

/-- C4 witness: "gas" matches "buy gas now" at span (4, 7), whose
neighbouring characters are spaces. -/
theorem spec_c4_witness :
    tokenize (pystrip "gas".data) ≠ [] ∧
    regexSearch (make_loose_regex "gas".data) "buy gas now".data = some (4, 7) ∧
    boundaryOkB "buy gas now".data 4 7 = true :=
  ⟨by decide, by decide,
    spec_c4_boundary_guard "gas".data "buy gas now".data 4 7 (by decide) (by decide)⟩

/-! ### Decomposition of a term around its own tokens -/

lemma tokenize_decomp_aux : ∀ (n : Nat) (s : List Char), s.length ≤ n →
    (tokenize s = [] ∧ ∀ c ∈ s, isWordChar c = false) ∨
    (∃ pre core suf, s = pre ++ core ++ suf ∧
      (∀ c ∈ pre, isWordChar c = false) ∧ (∀ c ∈ suf, isWordChar c = false) ∧
      IsVariant (tokenize s) core) := by
  intro n
  induction n with
  | zero =>
    intro s hs
    rw [List.length_eq_zero.1 (Nat.le_zero.1 hs)]
    exact Or.inl ⟨rfl, by simp⟩
  | succ n ih =>
    intro s hs
    cases s with
    | nil => exact Or.inl ⟨rfl, by simp⟩
    | cons c s' =>
      by_cases hc : isWordChar c = true
      · rw [tokenize_cons_word c s' hc]
        rcases ih (s'.dropWhile isWordChar)
            (le_trans (length_dropWhile_le _ _) (by simp at hs; omega)) with
          ⟨hdw, hall⟩ | ⟨pre', core', suf', hdweq, hpre', hsuf', hvar'⟩
        · refine Or.inr ⟨[], c :: s'.takeWhile isWordChar, s'.dropWhile isWordChar,
            ?_, by simp, hall, ?_⟩
          · simp [List.takeWhile_append_dropWhile]
          · rw [hdw]
            exact IsVariant.single _ _ (tokenEqIC_refl _)
        · refine Or.inr ⟨[], (c :: s'.takeWhile isWordChar) ++ (pre' ++ core'), suf',
            ?_, by simp, hsuf', ?_⟩
          · have h5 : s' = s'.takeWhile isWordChar ++ s'.dropWhile isWordChar :=
              (List.takeWhile_append_dropWhile _ _).symm
            conv_lhs => rw [h5, hdweq]
            simp
          · exact IsVariant.cons _ _ pre' _ core' (tokenEqIC_refl _) hpre' hvar'
      · rw [tokenize_cons_nonword c s' (by simpa using hc)]
        rcases ih s' (by simp at hs; omega) with
          ⟨h1, h2⟩ | ⟨pre', core', suf', heq, hpre', hsuf', hvar'⟩
        · refine Or.inl ⟨h1, ?_⟩
          intro d hd
          rcases List.mem_cons.1 hd with rfl | hd'
          · simpa using hc
          · exact h2 d hd'
        · refine Or.inr ⟨c :: pre', core', suf', by rw [heq]; simp, ?_, hsuf', hvar'⟩
          intro d hd
          rcases List.mem_cons.1 hd with rfl | hd'
          · simpa using hc
          · exact hpre' d hd'

lemma tokenize_decomp (s : List Char) :
    (tokenize s = [] ∧ ∀ c ∈ s, isWordChar c = false) ∨
    (∃ pre core suf, s = pre ++ core ++ suf ∧
      (∀ c ∈ pre, isWordChar c = false) ∧ (∀ c ∈ suf, isWordChar c = false) ∧
      IsVariant (tokenize s) core) :=
  tokenize_decomp_aux s.length s le_rfl

/-- C10: round-trip between compilation and matching: the matcher compiled from
any term matches the whitespace-trimmed term itself — searching the trimmed
term with its own compiled pattern always succeeds. -/
theorem spec_c10_roundtrip (T : List Char) :
    (regexSearch (make_loose_regex T) (pystrip T)).isSome = true := by
  cases hts : tokenize (pystrip T) with
  | nil =>
    have hm : make_loose_regex T = Matcher.literal (pystrip T) := by
      simp only [make_loose_regex, hts]
    have hmat : matchAt (Matcher.literal (pystrip T)) none (pystrip T) =
        some (pystrip T).length := by
      simp only [matchAt]
      rw [if_pos (startsWithIC_self _)]
    obtain ⟨r, hr⟩ := searchAux_append_isSome (Matcher.literal (pystrip T)) []
      (pystrip T) none 0 (pystrip T).length hmat
    simp only [List.nil_append] at hr
    rw [hm]
    unfold regexSearch
    rw [hr]
    rfl
  | cons t ts' =>
    have hm := make_loose_regex_loose T (by rw [hts]; simp)
    rcases tokenize_decomp (pystrip T) with ⟨h1, _⟩ |
      ⟨pre, core, suf, heq, hpre, hsuf, hvar⟩
    · rw [hts] at h1; cases h1
    · have hw := tokenize_tokens (pystrip T)
      have hmat := matchAt_variant (tokenize (pystrip T)) core suf (prevAfter none pre)
        hvar hw (notAlnumOpt_prevAfter pre none rfl hpre)
        (notAlnumOpt_head_of_nonword suf hsuf)
      obtain ⟨r, hr⟩ := searchAux_append_isSome (Matcher.loose (tokenize (pystrip T)))
        pre (core ++ suf) none 0 core.length hmat
      rw [hm, hts]
      unfold regexSearch
      rw [hts] at hr
      rw [heq, List.append_assoc, hr]
      rfl

/-! ### Claim theorems: variant descriptions -/

/-- C6 counterexample: the underscore is a non-alphanumeric character, so
"a_b" is prefix("") + variant("a b") + suffix("") in the claim's sense, and
no rule matches it at all (let alone with a longer span); yet resolution
returns the sentinel, not ("C", "S").  (`\W*` skips only non-word
characters, and `_` is a word character.) -/
theorem spec_c6_counterexample :
    tokenize (pystrip "a b".data) = ["a".data, "b".data] ∧
    isAsciiAlnum '_' = false ∧
    best_match "a_b".data [("C", [("S", [make_loose_regex "a b".data])])] =
      ("Uncategorized", "Other") :=
  ⟨by decide, by decide, by decide⟩

/-- C6 (amended): for a rule term T (owned by (cat, sub), tokenizing to at
least one token) and a description prefix ++ variant(T) ++ suffix — where
variant(T) keeps T's tokens in order, arbitrarily changes casing, and
inserts runs of non-word characters (non-alphanumeric other than
underscore, possibly empty) between consecutive tokens, the prefix is empty
or ends in a non-alphanumeric character, and the suffix is empty or begins
with a non-alphanumeric character — resolution returns (cat, sub), provided
every matcher of a different (category, subcategory) pair either misses the
description or has a strictly shorter leftmost span than T's matcher. -/
theorem spec_c6_variant_resolves (rules : RuleSet) (cat sub : String)
    (T pre core suf : List Char)
    (hmem : (cat, sub, make_loose_regex T) ∈ triples rules)
    (htoks : tokenize (pystrip T) ≠ [])
    (hvar : IsVariant (tokenize (pystrip T)) core)
    (hpre : notAlnumOpt (prevAfter none pre) = true)
    (hsuf : notAlnumOpt suf.head? = true)
    (hdom : ∀ t ∈ triples rules, (t.1, t.2.1) ≠ (cat, sub) →
      dominatedB (pre ++ (core ++ suf)) t.2.2 (make_loose_regex T) = true) :
    best_match (pre ++ (core ++ suf)) rules = (cat, sub) := by
  have hm := make_loose_regex_loose T htoks
  have hw := tokenize_tokens (pystrip T)
  have hmat := matchAt_variant (tokenize (pystrip T)) core suf (prevAfter none pre)
    hvar hw hpre hsuf
  obtain ⟨⟨s0, e0⟩, hr0⟩ := searchAux_append_isSome (Matcher.loose (tokenize (pystrip T)))
    pre (core ++ suf) none 0 core.length hmat
  have hr0' : regexSearch (make_loose_regex T) (pre ++ (core ++ suf)) = some (s0, e0) := by
    rw [hm]
    exact hr0
  have hse := regexSearch_le (make_loose_regex T) (pre ++ (core ++ suf)) s0 e0 hr0'
  rw [best_match_eq_fold]
  rcases foldl_bmStep_spec (pre ++ (core ++ suf)) (triples rules)
      (-1, ("Uncategorized", "Other")) with
    ⟨heq, hle⟩ | ⟨t1, ht1, a1, b1, hr1, hlt1, heq1, hle1⟩
  · exfalso
    have hcontra : (e0 : Int) - s0 ≤ -1 :=
      hle (cat, sub, make_loose_regex T) hmem s0 e0 hr0'
    omega
  · rw [heq1]
    by_cases hne : (t1.1, t1.2.1) = (cat, sub)
    · exact hne
    · exfalso
      have hd0 := hdom t1 ht1 hne
      unfold dominatedB at hd0
      rw [hr1, hr0'] at hd0
      have hd : decide (b1 - a1 < e0 - s0) = true := hd0
      simp only [decide_eq_true_eq] at hd
      have h1 := regexSearch_le t1.2.2 (pre ++ (core ++ suf)) a1 b1 hr1
      have h2 : (e0 : Int) - s0 ≤ (b1 : Int) - a1 :=
        hle1 (cat, sub, make_loose_regex T) hmem s0 e0 hr0'
      omega

/-- C6 witness: the rule "whole foods" owned by (Food, Groceries) resolves
the description "WHOLE-FOODS MKT" (case changed, '-' inserted between
tokens, suffix " MKT"). -/
theorem spec_c6_witness :
    best_match ([] ++ ("WHOLE-FOODS".data ++ " MKT".data))
      [("Food", [("Groceries", [make_loose_regex "whole foods".data])])] =
      ("Food", "Groceries") := by
  apply spec_c6_variant_resolves
    [("Food", [("Groceries", [make_loose_regex "whole foods".data])])]
    "Food" "Groceries" "whole foods".data [] "WHOLE-FOODS".data " MKT".data
  · decide
  · decide
  · have h1 : tokenize (pystrip "whole foods".data) = ["whole".data, "foods".data] := by
      decide
    have h2 : "WHOLE-FOODS".data = "WHOLE".data ++ ("-".data ++ "FOODS".data) := by
      decide
    rw [h1, h2]
    exact IsVariant.cons "whole".data "WHOLE".data "-".data ["foods".data] "FOODS".data
      (by decide) (by decide) (IsVariant.single "foods".data "FOODS".data (by decide))
  · decide
  · decide
  · decide

/-! ### Claim theorems: empty description -/

lemma regexSearch_nil_of_strip_ne (T : List Char) (h : pystrip T ≠ []) :
    regexSearch (make_loose_regex T) [] = none := by
  have hm : matchAt (make_loose_regex T) none [] = none := by
    cases hts : tokenize (pystrip T) with
    | nil =>
      have he : make_loose_regex T = Matcher.literal (pystrip T) := by
        simp only [make_loose_regex, hts]
      rw [he]
      simp only [matchAt]
      cases hs : pystrip T with
      | nil => exact absurd hs h
      | cons a as => rw [if_neg (by simp [startsWithIC])]
    | cons t ts' =>
      have he := make_loose_regex_loose T (by rw [hts]; simp)
      rw [he, hts]
      simp only [matchAt]
      rw [if_pos (show notAlnumOpt none = true from rfl)]
      have hb : matchBody (t :: ts') [] = none := by
        obtain ⟨htne, _⟩ := tokenize_tokens (pystrip T) t (by rw [hts]; simp)
        obtain ⟨a, as, rfl⟩ : ∃ a as, t = a :: as := by
          cases t with
          | nil => exact absurd rfl htne
          | cons a as => exact ⟨a, as, rfl⟩
        cases ts' with
        | nil => simp [matchBody, startsWithIC]
        | cons t2 ts'' => simp [matchBody, startsWithIC]
      rw [hb]
  unfold regexSearch
  rw [searchAux_nil_eq, hm]

lemma subTriples_matcher (c : String) :
    ∀ (subs : List (String × List Matcher)) (t : String × String × Matcher),
      t ∈ subTriples c subs → ∃ sp ∈ subs, t.2.2 ∈ sp.2 := by
  intro subs
  induction subs with
  | nil => intro t ht; cases ht
  | cons sp rest ih =>
    intro t ht
    rw [subTriples] at ht
    rcases List.mem_append.1 ht with h | h
    · obtain ⟨m, hm, rfl⟩ := List.mem_map.1 h
      exact ⟨sp, by simp, hm⟩
    · obtain ⟨sp', h1, h2⟩ := ih t h
      exact ⟨sp', List.mem_cons_of_mem _ h1, h2⟩

lemma triples_compileRaw (raw : RawRules) :
    ∀ t ∈ triples (compileRaw raw), ∃ cs ∈ raw, ∃ sp ∈ cs.2, ∃ T ∈ sp.2,
      t.2.2 = make_loose_regex T := by
  induction raw with
  | nil => intro t ht; cases ht
  | cons cs rest ih =>
    intro t ht
    simp only [compileRaw, List.map_cons] at ht
    rw [triples] at ht
    rcases List.mem_append.1 ht with h | h
    · obtain ⟨sp, hsp, hm⟩ := subTriples_matcher cs.1 _ t h
      obtain ⟨sp0, hsp0, he0⟩ := List.mem_map.1 hsp
      subst he0
      obtain ⟨T, hT, hTe⟩ := List.mem_map.1 hm
      exact ⟨cs, by simp, sp0, hsp0, T, hT, hTe.symm⟩
    · obtain ⟨cs', hcs', sp, hsp, T, hT, he⟩ := ih t h
      exact ⟨cs', List.mem_cons_of_mem _ hcs', sp, hsp, T, hT, he⟩

/-- C7 counterexample: the whitespace-only term " " strips to the empty
string and compiles to the empty literal pattern, which matches the empty
description with span 0; a Rule Set containing it resolves "" to that
rule's pair, not to the sentinel. -/
theorem spec_c7_counterexample :
    best_match [] (compileRaw [("C", [("S", [" ".data])])]) = ("C", "S") ∧
    (("C", "S") : String × String) ≠ ("Uncategorized", "Other") :=
  ⟨by decide, by decide⟩

/-- C7 (amended): for every Rule Set compiled from raw rules none of whose
terms strips to the empty string, resolving the empty description returns
the sentinel pair: the empty description is simply no match. -/
theorem spec_c7_empty_description (raw : RawRules)
    (h : ∀ cs ∈ raw, ∀ sp ∈ cs.2, ∀ T ∈ sp.2, pystrip T ≠ []) :
    best_match [] (compileRaw raw) = ("Uncategorized", "Other") := by
  apply best_match_of_no_match
  intro t ht
  obtain ⟨cs, hcs, sp, hsp, T, hT, he⟩ := triples_compileRaw raw t ht
  rw [he]
  exact regexSearch_nil_of_strip_ne T (h cs hcs sp hsp T hT)

/-- C7 witness: a one-rule Rule Set with the nonempty term "zzz" resolves
the empty description to the sentinel. -/
theorem spec_c7_witness :
    (∀ cs ∈ ([("Food", [("Groceries", ["zzz".data])])] : RawRules),
      ∀ sp ∈ cs.2, ∀ T ∈ sp.2, pystrip T ≠ []) ∧
    best_match [] (compileRaw [("Food", [("Groceries", ["zzz".data])])]) =
      ("Uncategorized", "Other") :=
  ⟨by decide,
    spec_c7_empty_description [("Food", [("Groceries", ["zzz".data])])] (by decide)⟩

/-! ### Claim theorems: rule loading -/

lemma compileTermList_ok : ∀ (ts : List Json) (ms : List Matcher),
    compileTermList ts = .ok ms → ∀ t ∈ ts, termMalformedB t = false := by
  intro ts
  induction ts with
  | nil => intro ms _ t ht; cases ht
  | cons t0 ts ih =>
    intro ms h t' ht'
    simp only [compileTermList] at h
    cases hc : compileTerm t0 with
    | error e =>
      rw [hc] at h
      have h2 : (Except.error e : Except String (List Matcher)) = .ok ms := h
      cases h2
    | ok m =>
      rw [hc] at h
      cases hr : compileTermList ts with
      | error e =>
        rw [hr] at h
        have h2 : (Except.error e : Except String (List Matcher)) = .ok ms := h
        cases h2
      | ok ms' =>
        rcases List.mem_cons.1 ht' with rfl | hmem
        · cases t' <;>
            first
            | rfl
            | exact absurd (show (Except.error "rules term is not a string" :
                Except String Matcher) = Except.ok m from hc) (by simp)
        · exact ih ms' hr t' hmem

lemma compileSubsList_ok : ∀ (subs : List (String × Json)) (l : List (String × List Matcher)),
    compileSubsList subs = .ok l → ∀ sp ∈ subs, subMalformedB sp = false := by
  intro subs
  induction subs with
  | nil => intro l _ sp hsp; cases hsp
  | cons sp0 rest ih =>
    intro l h sp hsp
    simp only [compileSubsList] at h
    cases hc : compileTerms sp0.2 with
    | error e =>
      rw [hc] at h
      have h2 : (Except.error e : Except String (List (String × List Matcher))) = .ok l := h
      cases h2
    | ok ms =>
      rw [hc] at h
      cases hr : compileSubsList rest with
      | error e =>
        rw [hr] at h
        have h2 : (Except.error e : Except String (List (String × List Matcher))) = .ok l := h
        cases h2
      | ok l' =>
        rcases List.mem_cons.1 hsp with rfl | hmem
        · unfold subMalformedB
          cases hj : sp.2 with
          | arr ts =>
            rw [hj] at hc
            have hall := compileTermList_ok ts ms hc
            show ts.any termMalformedB = false
            rw [List.any_eq_false]
            intro x hx
            simp [hall x hx]
          | str s => rfl
          | obj fs => rfl
          | num n => rw [hj] at hc
          | bool b => rw [hj] at hc
          | null => rw [hj] at hc
        · exact ih l' hr sp hmem

lemma compileCats_ok : ∀ (cats : List (String × Json)) (rs : RuleSet),
    compileCats cats = .ok rs → ∀ cs ∈ cats, catMalformedB cs = false := by
  intro cats
  induction cats with
  | nil => intro rs _ cs hcs; cases hcs
  | cons cs0 rest ih =>
    intro rs h cs hcs
    simp only [compileCats] at h
    cases hj : cs0.2 with
    | obj sfields =>
      rw [hj] at h
      have h3 : (match compileSubsList sfields with
          | Except.ok l0 =>
            match compileCats rest with
            | Except.ok rs0 => Except.ok ((cs0.1, l0) :: rs0)
            | Except.error e0 => Except.error e0
          | Except.error e0 => Except.error e0) = Except.ok rs := h
      clear h
      cases hc : compileSubsList sfields with
      | error e =>
        rw [hc] at h3
        have h2 : (Except.error e : Except String RuleSet) = .ok rs := h3
        cases h2
      | ok l =>
        rw [hc] at h3
        cases hr : compileCats rest with
        | error e =>
          rw [hr] at h3
          have h2 : (Except.error e : Except String RuleSet) = .ok rs := h3
          cases h2
        | ok rs' =>
          rcases List.mem_cons.1 hcs with rfl | hmem
          · unfold catMalformedB
            rw [hj]
            show sfields.any subMalformedB = false
            rw [List.any_eq_false]
            intro sp hsp
            simp [compileSubsList_ok sfields l hc sp hsp]
          · exact ih rs' hr cs hmem
    | str s =>
      rw [hj] at h
      have h2 : (Except.error "rules category value is not a mapping" :
        Except String RuleSet) = .ok rs := h
      cases h2
    | num n =>
      rw [hj] at h
      have h2 : (Except.error "rules category value is not a mapping" :
        Except String RuleSet) = .ok rs := h
      cases h2
    | bool b =>
      rw [hj] at h
      have h2 : (Except.error "rules category value is not a mapping" :
        Except String RuleSet) = .ok rs := h
      cases h2
    | null =>
      rw [hj] at h
      have h2 : (Except.error "rules category value is not a mapping" :
        Except String RuleSet) = .ok rs := h
      cases h2
    | arr xs =>
      rw [hj] at h
      have h2 : (Except.error "rules category value is not a mapping" :
        Except String RuleSet) = .ok rs := h
      cases h2

/-- C8: on malformed raw rules — the document is not a mapping, a category
value is not a mapping, or a term list contains a non-string term — rule
compilation returns an error and never a (partial) Rule Set. -/
theorem spec_c8_malformed_rules_error (raw : Json) (h : malformedB raw = true) :
    ∃ msg, load_rules_json raw = Except.error msg := by
  cases hl : load_rules_json raw with
  | error msg => exact ⟨msg, rfl⟩
  | ok rs =>
    exfalso
    cases raw with
    | obj cats =>
      simp only [load_rules_json] at hl
      have hall := compileCats_ok cats rs hl
      unfold malformedB at h
      obtain ⟨cs, hcs, hbad⟩ := List.any_eq_true.1 h
      rw [hall cs hcs] at hbad
      cases hbad
    | str s => simp only [load_rules_json] at hl; cases hl
    | num n => simp only [load_rules_json] at hl; cases hl
    | bool b => simp only [load_rules_json] at hl; cases hl
    | null => simp only [load_rules_json] at hl; cases hl
    | arr xs => simp only [load_rules_json] at hl; cases hl

/-- C8 witness: a rules document with a numeric term is malformed and
compilation reports an error. -/
theorem spec_c8_witness :
    malformedB (Json.obj [("C", Json.obj [("S", Json.arr [Json.num 5])])]) = true ∧
    ∃ msg, load_rules_json (Json.obj [("C", Json.obj [("S", Json.arr [Json.num 5])])]) =
      Except.error msg :=
  ⟨by decide,
    spec_c8_malformed_rules_error
      (Json.obj [("C", Json.obj [("S", Json.arr [Json.num 5])])]) (by decide)⟩
